import Mathlib

/-!
Shallow embedding of the drawing core of `src/app.rs` (a character-grid
drawing canvas): styled cells, the cell compositor, the raster, drawing
events, the undo buffer and the canvas session, together with proofs of
the specification claims about them.

Machine integers (`u8`, `u32`) are modelled as `Nat`; the arithmetic of
the claims never overflows those widths.  Rust `Option` is Lean `Option`,
`Vec`/`HashSet`/`HashMap` are Lean lists (a `HashMap` becomes a list of
key/value pairs with distinct keys; iteration order of hash containers is
irrelevant to every claim proved here).
-/

/-- A grid coordinate, mirroring `gridbugs::coord_2d::Coord` (`i32` fields,
modelled as `Int`). -/
structure Coord where
  x : Int
  y : Int
deriving DecidableEq, Repr

instance : Add Coord := ⟨fun a b => ⟨a.x + b.x, a.y + b.y⟩⟩

theorem Coord.add_def (a b : Coord) : a + b = ⟨a.x + b.x, a.y + b.y⟩ := rfl

/-- A colour with alpha, mirroring `rgb_int::Rgba32` (four `u8` channels). -/
structure Rgba32 where
  r : Nat
  g : Nat
  b : Nat
  a : Nat
deriving DecidableEq, Repr

/-- `Rgba32::new_grey(c)` from the external `rgb_int` dependency: an opaque
grey (alpha 255). -/
def Rgba32.newGrey (c : Nat) : Rgba32 := ⟨c, c, c, 255⟩

/-- Porter-Duff source-over compositing of `above` over `below`, modelling
`Rgba32::alpha_composite` of the external `rgb_int` dependency (the crate is
not part of this repository; the claims proved below do not depend on the
arithmetic details of the blend, only on the `Option` plumbing around it). -/
def Rgba32.alphaComposite (above below : Rgba32) : Rgba32 :=
  let aboveWeight := above.a
  let belowWeight := below.a * (255 - above.a) / 255
  let outAlpha := aboveWeight + belowWeight
  let channel := fun (ca cb : Nat) =>
    if outAlpha = 0 then 0 else (ca * aboveWeight + cb * belowWeight) / outAlpha
  ⟨channel above.r below.r, channel above.g below.g, channel above.b below.b, outAlpha⟩

/-- Cell emphasis and colours, mirroring `chargrid`'s `Style` (all fields
optional; `None` means transparent/unset). -/
structure Style where
  foreground : Option Rgba32
  background : Option Rgba32
  bold : Option Bool
  underline : Option Bool
deriving DecidableEq, Repr

/-- `Style::default()`: every field unset. -/
def Style.default : Style := ⟨none, none, none, none⟩

def Style.withBackground (s : Style) (c : Rgba32) : Style := { s with background := some c }

/-- One grid position's visual content, mirroring `chargrid`'s `RenderCell`. -/
structure RenderCell where
  character : Option Char
  style : Style
deriving DecidableEq, Repr

/-- The inner `blend` function of `Raster::stack_render_cells`
(src/app.rs lines 289-295). -/
def blendChannel : Option Rgba32 → Option Rgba32 → Option Rgba32
  | none, none => none
  | some x, none => some x
  | none, some x => some x
  | some a, some b => some (a.alphaComposite b)

/-- The raster: a fixed-size 2-D grid of cells, mirroring the
`Raster { grid: Grid<RenderCell> }` struct (src/app.rs lines 272-275).
`grid_2d::Grid` stores one cell per in-bounds coordinate; we model the
storage as a total function on coordinates, with every observation going
through the bounds check exactly as `Grid::get`/`get_mut` do. -/
structure Raster where
  width : Nat
  height : Nat
  cells : Coord → RenderCell

/-- The bounds predicate of `grid_2d::Grid` on signed coordinates:
`get(coord)` is `Some` exactly on `[0, width) × [0, height)`. -/
def Raster.InBounds (r : Raster) (c : Coord) : Prop :=
  0 ≤ c.x ∧ c.x < (r.width : Int) ∧ 0 ≤ c.y ∧ c.y < (r.height : Int)

instance (r : Raster) (c : Coord) : Decidable (r.InBounds c) := by
  unfold Raster.InBounds; infer_instance

/-- `Grid::get`: the stored cell behind a bounds check. -/
def Raster.get? (r : Raster) (c : Coord) : Option RenderCell :=
  if r.InBounds c then some (r.cells c) else none

/-- `Raster::new` (src/app.rs lines 278-286): every cell of the grid is
initialised to the literal
`RenderCell { character: None, style: Style::default().with_background(Rgba32::new_grey(0)) }`. -/
def Raster.new (width height : Nat) : Raster :=
  let cell : RenderCell :=
    { character := none, style := Style.default.withBackground (Rgba32.newGrey 0) }
  ⟨width, height, fun _ => cell⟩

/-- `Raster::stack_render_cells` (src/app.rs lines 288-309), the cell
compositor, translated line by line — including line 307, which reads
`top.style.bold` (not `top.style.underline`) when computing the underline. -/
def Raster.stackRenderCells (bottom top : RenderCell) : RenderCell :=
  let bottomForeground :=
    if bottom.character.isNone then bottom.style.background else bottom.style.foreground
  { character := top.character.or bottom.character
    style :=
      { background := blendChannel top.style.background bottom.style.background
        foreground := blendChannel top.style.foreground bottomForeground
        bold := top.style.bold.or bottom.style.bold
        underline := top.style.bold.or bottom.style.underline } }

/-- `Raster::set_coord` (src/app.rs lines 311-315): in bounds, replace the
stored cell by the composite of the current cell (bottom) and the incoming
cell (top); out of bounds, `Grid::get_mut` returns `None` and nothing
happens. -/
def Raster.setCoord (r : Raster) (coord : Coord) (cell : RenderCell) : Raster :=
  if r.InBounds coord then
    { r with
      cells := fun c =>
        if c = coord then Raster.stackRenderCells (r.cells coord) cell else r.cells c }
  else r

/-- `Raster::clear_coord` (src/app.rs lines 317-324): in bounds, reset the
stored cell to the literal
`RenderCell { character: None, style: Style::default().with_background(Rgba32::new_grey(0)) }`;
out of bounds, nothing happens. -/
def Raster.clearCoord (r : Raster) (coord : Coord) : Raster :=
  if r.InBounds coord then
    { r with
      cells := fun c =>
        if c = coord then
          { character := none, style := Style.default.withBackground (Rgba32.newGrey 0) }
        else r.cells c }
  else r

/-- The four cardinal neighbour offsets, mirroring
`CardinalDirection::all()` of the external `direction` dependency
(north, east, south, west as coordinate deltas). -/
def cardinalDirectionCoords : List Coord := [⟨0, -1⟩, ⟨1, 0⟩, ⟨0, 1⟩, ⟨-1, 0⟩]

/-- The inner `for d in CardinalDirection::all()` loop of
`Raster::flood_fill` (src/app.rs lines 334-344): each neighbour of `c` that
has not been seen, is in bounds, and stores a cell equal to the seed's cell
is appended to both the queue and the seen set.  The `VecDeque` with
`push_front`/`pop_back` is a FIFO queue; we model it as a list popped at the
head and pushed at the tail, and the `HashSet` of seen coordinates as a
duplicate-free list. -/
def floodFillNeighbours (r : Raster) (initialCell : RenderCell) (c : Coord) :
    List Coord → List Coord → List Coord → List Coord × List Coord
  | [], queue, seen => (queue, seen)
  | d :: ds, queue, seen =>
    let nei := c + d
    if nei ∈ seen then floodFillNeighbours r initialCell c ds queue seen
    else
      match r.get? nei with
      | none => floodFillNeighbours r initialCell c ds queue seen
      | some neiCell =>
        if neiCell = initialCell then
          floodFillNeighbours r initialCell c ds (queue ++ [nei]) (seen ++ [nei])
        else floodFillNeighbours r initialCell c ds queue seen

/-- The `while let Some(coord) = queue.pop_back()` loop of
`Raster::flood_fill` (src/app.rs lines 333-345).  The Rust loop terminates
because each coordinate enters the queue at most once; here the same bound
appears as a fuel parameter, and `Raster.floodFill` passes enough fuel
(`width * height`) for the loop to run to completion. -/
def floodFillLoop (r : Raster) (initialCell : RenderCell) :
    Nat → List Coord → List Coord → List Coord
  | 0, _, seen => seen
  | _ + 1, [], seen => seen
  | fuel + 1, c :: queue, seen =>
    let qs := floodFillNeighbours r initialCell c cardinalDirectionCoords queue seen
    floodFillLoop r initialCell fuel qs.1 qs.2

/-- `Raster::flood_fill` (src/app.rs lines 325-347): breadth-first search
from `coord`, collecting every coordinate connected to `coord` through
cardinal steps over cells equal to the seed's cell.  The source reads the
seed's cell with `Grid::get_checked`, which panics out of bounds — the
spec makes an in-bounds seed the caller's obligation, and every claim about
`flood_fill` assumes it — so the total model below is only meaningful for
in-bounds seeds. -/
def Raster.floodFill (r : Raster) (coord : Coord) : List Coord :=
  floodFillLoop r (r.cells coord) (r.width * r.height) [coord] [coord]

/-- Straight-line rasterization between two grid coordinates, both endpoints
included: the classic all-octant integer Bresenham walk, modelling
`line_2d::coords_between` of the external `line_2d` dependency (not part of
this repository; no claim depends on which intermediate cells the walk
selects).  The fuel bound `|dx| + |dy| + 1` covers every step the walk can
take. -/
def lineWalk (x1 y1 sx sy dx dy : Int) : Nat → Int → Int → Int → List Coord
  | 0, _, _, _ => []
  | fuel + 1, x, y, err =>
    let here : Coord := ⟨x, y⟩
    if x = x1 ∧ y = y1 then [here]
    else
      let e2 := 2 * err
      let x' := if dy ≤ e2 then x + sx else x
      let errX := if dy ≤ e2 then err + dy else err
      let y' := if e2 ≤ dx then y + sy else y
      let errY := if e2 ≤ dx then errX + dx else errX
      here :: lineWalk x1 y1 sx sy dx dy fuel x' y' errY

def coordsBetween (a b : Coord) : List Coord :=
  let dx : Int := (b.x - a.x).natAbs
  let dy : Int := -((b.y - a.y).natAbs : Int)
  let sx : Int := if a.x < b.x then 1 else -1
  let sy : Int := if a.y < b.y then 1 else -1
  lineWalk b.x b.y sx sy dx dy ((b.x - a.x).natAbs + (b.y - a.y).natAbs + 1) a.x a.y (dx + dy)

/-- `PencilEvent` (src/app.rs lines 81-127): the `HashMap<Coord, u32>` of
visit counts becomes a list of key/count pairs with distinct keys. -/
structure PencilEvent where
  coords : List (Coord × Nat)
  lastCoord : Coord

def PencilEvent.mousePress (coord : Coord) : PencilEvent := ⟨[(coord, 1)], coord⟩

/-- `*self.coords.entry(coord).or_insert(0) += 1`: bump the count of `coord`,
inserting it with count 1 if absent. -/
def bumpCount : List (Coord × Nat) → Coord → List (Coord × Nat)
  | [], c => [(c, 1)]
  | p :: ps, c => if p.1 = c then (p.1, p.2 + 1) :: ps else p :: bumpCount ps c

/-- `PencilEvent::mouse_move` (src/app.rs lines 94-106): when the pointer
moved, every cell strictly after the last coordinate up to and including the
new one (`exclude_start: true, exclude_end: false`) gets its visit count
bumped. -/
def PencilEvent.mouseMove (e : PencilEvent) (coord : Coord) : PencilEvent :=
  if coord ≠ e.lastCoord then
    ⟨((coordsBetween e.lastCoord coord).drop 1).foldl bumpCount e.coords, coord⟩
  else e

/-- The inner `for _ in 0..count` loop of `PencilEvent::commit`
(src/app.rs lines 109-111): apply `set_coord` at the same coordinate
`count` times in sequence. -/
def setCoordTimes (r : Raster) (coord : Coord) (cell : RenderCell) : Nat → Raster
  | 0 => r
  | n + 1 => setCoordTimes (r.setCoord coord cell) coord cell n

/-- `PencilEvent::commit` (src/app.rs lines 107-113). -/
def PencilEvent.commit (e : PencilEvent) (renderCell : RenderCell) (r : Raster) : Raster :=
  e.coords.foldl (fun acc p => setCoordTimes acc p.1 renderCell p.2) r

/-- `FillEvent` (src/app.rs lines 129-154). -/
structure FillEvent where
  start : Coord

def FillEvent.mousePress (coord : Coord) : FillEvent := ⟨coord⟩

def FillEvent.mouseMove (_ : FillEvent) (coord : Coord) : FillEvent := ⟨coord⟩

/-- `FillEvent::commit` (src/app.rs lines 141-145): compute the flood-fill
region of the stored seed against the raster at commit time, then compose
the style once onto every coordinate of the region. -/
def FillEvent.commit (e : FillEvent) (renderCell : RenderCell) (r : Raster) : Raster :=
  (r.floodFill e.start).foldl (fun acc c => acc.setCoord c renderCell) r

/-- `LineEvent` (src/app.rs lines 156-185); the Rust field `end` is a Lean
keyword and is named `stop` here. -/
structure LineEvent where
  start : Coord
  stop : Coord

def LineEvent.mousePress (coord : Coord) : LineEvent := ⟨coord, coord⟩

def LineEvent.mouseMove (e : LineEvent) (coord : Coord) : LineEvent := { e with stop := coord }

/-- `LineEvent::commit` (src/app.rs lines 172-176). -/
def LineEvent.commit (e : LineEvent) (renderCell : RenderCell) (r : Raster) : Raster :=
  (coordsBetween e.start e.stop).foldl (fun acc c => acc.setCoord c renderCell) r

/-- `EraseEvent` (src/app.rs lines 187-223): the `HashSet<Coord>` of visited
coordinates becomes a duplicate-free list. -/
structure EraseEvent where
  coords : List Coord
  lastCoord : Coord

def EraseEvent.mousePress (coord : Coord) : EraseEvent := ⟨[coord], coord⟩

/-- `HashSet::insert`. -/
def insertCoord (s : List Coord) (c : Coord) : List Coord := if c ∈ s then s else s ++ [c]

/-- `EraseEvent::mouse_move` (src/app.rs lines 200-205). -/
def EraseEvent.mouseMove (e : EraseEvent) (coord : Coord) : EraseEvent :=
  ⟨(coordsBetween e.lastCoord coord).foldl insertCoord e.coords, coord⟩

/-- `EraseEvent::commit` (src/app.rs lines 206-210): clear every visited
coordinate. -/
def EraseEvent.commit (e : EraseEvent) (r : Raster) : Raster :=
  e.coords.foldl Raster.clearCoord r

/-- `DrawingEvent` (src/app.rs lines 225-270). -/
inductive DrawingEvent where
  | pencil (e : PencilEvent)
  | fill (e : FillEvent)
  | line (e : LineEvent)
  | erase (e : EraseEvent)

def DrawingEvent.mousePressPencil (coord : Coord) : DrawingEvent :=
  .pencil (PencilEvent.mousePress coord)

def DrawingEvent.mousePressFill (coord : Coord) : DrawingEvent :=
  .fill (FillEvent.mousePress coord)

def DrawingEvent.mousePressLine (coord : Coord) : DrawingEvent :=
  .line (LineEvent.mousePress coord)

def DrawingEvent.mousePressErase (coord : Coord) : DrawingEvent :=
  .erase (EraseEvent.mousePress coord)

def DrawingEvent.mouseMove : DrawingEvent → Coord → DrawingEvent
  | .pencil e, c => .pencil (e.mouseMove c)
  | .fill e, c => .fill (e.mouseMove c)
  | .line e, c => .line (e.mouseMove c)
  | .erase e, c => .erase (e.mouseMove c)

/-- `DrawingEvent::commit` (src/app.rs lines 254-261); the erase arm ignores
the render cell. -/
def DrawingEvent.commit : DrawingEvent → RenderCell → Raster → Raster
  | .pencil e, cell, r => e.commit cell r
  | .fill e, cell, r => e.commit cell r
  | .line e, cell, r => e.commit cell r
  | .erase e, _, r => e.commit r

/-- `DrawingEventWithRenderCell` (src/app.rs lines 354-358): a committed
edit, the stroke plus the single style it was painted with. -/
structure DrawingEventWithRenderCell where
  drawingEvent : DrawingEvent
  renderCell : RenderCell

/-- `Raster::commit_event` (src/app.rs lines 349-351). -/
def Raster.commitEvent (r : Raster) (e : DrawingEventWithRenderCell) : Raster :=
  e.drawingEvent.commit e.renderCell r

/-- Replay of a committed-edit log onto a starting raster, in stored order —
the `for event in &self.events { raster.commit_event(event) }` loops of
`UndoBuffer::undo` and `UndoBuffer::redo`. -/
def replayEvents (initial : Raster) (events : List DrawingEventWithRenderCell) : Raster :=
  events.foldl Raster.commitEvent initial

/-- `UndoBuffer` (src/app.rs lines 360-365): the initial snapshot, the
committed-edit log (`Vec`, pushed/popped at the tail) and the redo stack. -/
structure UndoBuffer where
  initial : Raster
  events : List DrawingEventWithRenderCell
  redoBuffer : List DrawingEventWithRenderCell

/-- `UndoBuffer::new` (src/app.rs lines 368-374). -/
def UndoBuffer.new (initial : Raster) : UndoBuffer := ⟨initial, [], []⟩

/-- `UndoBuffer::undo` (src/app.rs lines 376-385): clone the initial raster;
if the event log is non-empty, move its last entry to the redo stack and
replay the shortened log onto the clone; return the clone together with the
updated buffer (the Rust method mutates `self` in place). -/
def UndoBuffer.undo (b : UndoBuffer) : Raster × UndoBuffer :=
  match b.events.getLast? with
  | none => (b.initial, b)
  | some e =>
    let events := b.events.dropLast
    (replayEvents b.initial events,
      { b with events := events, redoBuffer := b.redoBuffer ++ [e] })

/-- `UndoBuffer::redo` (src/app.rs lines 387-396): if the redo stack is
non-empty, move its last entry back onto the event log; in either case
replay the full event log onto a clone of the initial raster. -/
def UndoBuffer.redo (b : UndoBuffer) : Raster × UndoBuffer :=
  let b2 :=
    match b.redoBuffer.getLast? with
    | none => b
    | some e => { b with events := b.events ++ [e], redoBuffer := b.redoBuffer.dropLast }
  (replayEvents b2.initial b2.events, b2)

/-- `UndoBuffer::commit_event` (src/app.rs lines 398-401): append the edit
to the event log and clear the redo stack. -/
def UndoBuffer.commitEvent (b : UndoBuffer) (e : DrawingEventWithRenderCell) : UndoBuffer :=
  { b with events := b.events ++ [e], redoBuffer := [] }

/-- The claim-relevant slice of the session state (`DrawingState` /
`AppData`, src/app.rs lines 410-424 and 455-532): the cached committed
raster and the undo buffer.  The remaining fields (tool list, palette
indices, hover state, the in-progress event) do not influence the committed
raster once the committed edit itself is given. -/
structure DrawingSession where
  canvasState : Raster
  undoBuffer : UndoBuffer

/-- `DrawingState::new` (src/app.rs lines 427-444) creates the raster and
the undo buffer together, the buffer's initial raster being a clone of the
fresh canvas; the source uses `Raster::new(Size::new(100, 80))`, and a
session may also start from any deserialized raster, so the constructor is
parametrized by the starting raster. -/
def DrawingSession.new (canvas : Raster) : DrawingSession := ⟨canvas, UndoBuffer.new canvas⟩

/-- The three session operations that touch the committed raster:
`AppData::commit_current_event` (src/app.rs lines 515-524, carrying the
finished event paired with the current render cell), `AppData::undo`
(lines 526-528) and `AppData::redo` (lines 530-532). -/
inductive SessionOp where
  | commit (event : DrawingEventWithRenderCell)
  | undo
  | redo

def DrawingSession.applyOp (s : DrawingSession) : SessionOp → DrawingSession
  | .commit e => ⟨s.canvasState.commitEvent e, s.undoBuffer.commitEvent e⟩
  | .undo => ⟨(s.undoBuffer.undo).1, (s.undoBuffer.undo).2⟩
  | .redo => ⟨(s.undoBuffer.redo).1, (s.undoBuffer.redo).2⟩

def DrawingSession.runOps (s : DrawingSession) (ops : List SessionOp) : DrawingSession :=
  ops.foldl DrawingSession.applyOp s

/-- C1.  The claim reads: compose sets `bold` to top's bold if present else
bottom's bold, and sets `underline` to top's underline if present else
bottom's underline.  The `bold` half matches the code, but line 307 of
src/app.rs computes the underline from `top.style.bold`: with a top cell
whose bold is `Some(true)` and whose underline is `None`, over a bottom cell
whose underline is `Some(false)`, the code produces underline `Some(true)`
where the claim requires `Some(false)` (bottom's underline).  This closed
theorem evaluates the compositor at that input and records both the actual
output and the output the claim requires. -/
theorem stack_underline_uses_top_bold :
    let bottom : RenderCell := ⟨none, ⟨none, none, none, some false⟩⟩
    let top : RenderCell := ⟨none, ⟨none, none, some true, none⟩⟩
    (Raster.stackRenderCells bottom top).style.underline = some true ∧
      top.style.underline.or bottom.style.underline = some false ∧
      (Raster.stackRenderCells bottom top).style.bold = top.style.bold.or bottom.style.bold := by
  refine ⟨rfl, rfl, rfl⟩

/-- C2 counterexample.  The claim reads: every cell of `new(width, height)`
has an absent background.  False already for `new(1, 1)` at coordinate
`(0, 0)`: the stored background is the opaque black `Rgba32::new_grey(0)`. -/
theorem new_raster_background_not_absent :
    ¬ (∀ c : Coord, (Raster.new 1 1).InBounds c →
        ((Raster.new 1 1).cells c).style.background = none) := by
  intro h
  have h0 := h ⟨0, 0⟩ (by decide)
  simp [Raster.new, Style.default, Style.withBackground, Rgba32.newGrey] at h0

/-- C2 (amended).  Every cell of the raster returned by `new(width, height)`
is the same default cell: character absent, foreground absent, bold and
underline absent, and background the opaque black `Rgba32::new_grey(0)`
(r = g = b = 0, alpha = 255) — not an absent background. -/
theorem new_raster_cells (width height : Nat) (c : Coord)
    (h : (Raster.new width height).InBounds c) :
    (Raster.new width height).get? c =
      some ⟨none, ⟨none, some ⟨0, 0, 0, 255⟩, none, none⟩⟩ := by
  simp only [Raster.get?]
  rw [if_pos h]
  simp [Raster.new, Style.default, Style.withBackground, Rgba32.newGrey]

/-- C2 witness: the amended claim evaluated at `new(2, 3)`, coordinate `(1, 2)`. -/
theorem new_raster_cells_witness :
    (Raster.new 2 3).get? ⟨1, 2⟩ =
      some ⟨none, ⟨none, some ⟨0, 0, 0, 255⟩, none, none⟩⟩ :=
  new_raster_cells 2 3 ⟨1, 2⟩ (by decide)

/-- C8.  For every coordinate outside `[0, width) × [0, height)`, both
`set_coord` and `clear_coord` return the raster unchanged: `Grid::get_mut`
yields `None` out of bounds and both functions fall through without any
effect or error (both are total functions here — there is no error channel). -/
theorem out_of_bounds_writes_are_noops (r : Raster) (c : Coord) (cell : RenderCell)
    (h : ¬ r.InBounds c) :
    r.setCoord c cell = r ∧ r.clearCoord c = r := by
  constructor
  · simp [Raster.setCoord, h]
  · simp [Raster.clearCoord, h]

/-- C8 witness: on `new(1, 1)` the coordinate `(5, 0)` is out of bounds and
both writes are no-ops. -/
theorem out_of_bounds_writes_are_noops_witness :
    (Raster.new 1 1).setCoord ⟨5, 0⟩ ⟨none, ⟨none, none, none, none⟩⟩ = Raster.new 1 1 ∧
      (Raster.new 1 1).clearCoord ⟨5, 0⟩ = Raster.new 1 1 :=
  out_of_bounds_writes_are_noops (Raster.new 1 1) ⟨5, 0⟩ _ (by decide)

/-- C9.  `clear_coord` stores, at the cleared in-bounds coordinate, exactly
the cell value `new` initialises every cell to: character absent, foreground
absent, bold and underline absent, and background the opaque black / grey-0
`Rgba32::new_grey(0)` (alpha 255) — so an erased cell is structurally
indistinguishable from a never-painted cell, and the per-cell default indeed
carries an opaque black background rather than an absent one. -/
theorem clear_coord_restores_initial_cell (r : Raster) (c : Coord) (h : r.InBounds c)
    (width height : Nat) (c' : Coord) :
    (r.clearCoord c).cells c = (Raster.new width height).cells c' ∧
      ((r.clearCoord c).cells c).character = none ∧
      ((r.clearCoord c).cells c).style.foreground = none ∧
      ((r.clearCoord c).cells c).style.background = some ⟨0, 0, 0, 255⟩ ∧
      ((r.clearCoord c).cells c).style.bold = none ∧
      ((r.clearCoord c).cells c).style.underline = none := by
  simp [Raster.clearCoord, h, Raster.new, Style.default, Style.withBackground, Rgba32.newGrey]

/-- C9 witness: clearing `(0, 0)` on `new(1, 1)` stores the same cell that
`new(4, 4)` initialises `(2, 2)` to, with the listed field values. -/
theorem clear_coord_restores_initial_cell_witness :
    ((Raster.new 1 1).clearCoord ⟨0, 0⟩).cells ⟨0, 0⟩ = (Raster.new 4 4).cells ⟨2, 2⟩ ∧
      (((Raster.new 1 1).clearCoord ⟨0, 0⟩).cells ⟨0, 0⟩).character = none ∧
      (((Raster.new 1 1).clearCoord ⟨0, 0⟩).cells ⟨0, 0⟩).style.foreground = none ∧
      (((Raster.new 1 1).clearCoord ⟨0, 0⟩).cells ⟨0, 0⟩).style.background = some ⟨0, 0, 0, 255⟩ ∧
      (((Raster.new 1 1).clearCoord ⟨0, 0⟩).cells ⟨0, 0⟩).style.bold = none ∧
      (((Raster.new 1 1).clearCoord ⟨0, 0⟩).cells ⟨0, 0⟩).style.underline = none :=
  clear_coord_restores_initial_cell (Raster.new 1 1) ⟨0, 0⟩ (by decide) 4 4 ⟨2, 2⟩

/-- One session operation preserves the cache invariant "the committed
raster equals the replay of the event log onto the buffer's initial
raster", and never changes the buffer's initial raster (helper for C3). -/
theorem DrawingSession.applyOp_canvas_eq (s : DrawingSession) (op : SessionOp)
    (h : s.canvasState = replayEvents s.undoBuffer.initial s.undoBuffer.events) :
    (s.applyOp op).canvasState =
      replayEvents (s.applyOp op).undoBuffer.initial (s.applyOp op).undoBuffer.events ∧
      (s.applyOp op).undoBuffer.initial = s.undoBuffer.initial := by
  cases op with
  | commit e =>
    refine ⟨?_, rfl⟩
    simp only [DrawingSession.applyOp, UndoBuffer.commitEvent, replayEvents, List.foldl_concat]
    rw [h]
    rfl
  | undo =>
    cases hl : s.undoBuffer.events.getLast? with
    | none =>
      have hnil : s.undoBuffer.events = [] := List.getLast?_eq_none_iff.mp hl
      constructor
      · simp only [DrawingSession.applyOp, UndoBuffer.undo, hl]
        rw [hnil]
        rfl
      · simp only [DrawingSession.applyOp, UndoBuffer.undo, hl]
    | some e =>
      constructor
      · simp only [DrawingSession.applyOp, UndoBuffer.undo, hl]
      · simp only [DrawingSession.applyOp, UndoBuffer.undo, hl]
  | redo =>
    cases hl : s.undoBuffer.redoBuffer.getLast? with
    | none =>
      constructor
      · simp only [DrawingSession.applyOp, UndoBuffer.redo, hl]
      · simp only [DrawingSession.applyOp, UndoBuffer.redo, hl]
    | some e =>
      constructor
      · simp only [DrawingSession.applyOp, UndoBuffer.redo, hl]
      · simp only [DrawingSession.applyOp, UndoBuffer.redo, hl]

/-- The cache invariant propagated along any sequence of session
operations (helper for C3). -/
theorem DrawingSession.runOps_invariant (ops : List SessionOp) (s : DrawingSession)
    (h : s.canvasState = replayEvents s.undoBuffer.initial s.undoBuffer.events) :
    ((s.runOps ops).canvasState =
        replayEvents (s.runOps ops).undoBuffer.initial (s.runOps ops).undoBuffer.events) ∧
      (s.runOps ops).undoBuffer.initial = s.undoBuffer.initial := by
  induction ops generalizing s with
  | nil => exact ⟨h, rfl⟩
  | cons op ops ih =>
    have hstep := DrawingSession.applyOp_canvas_eq s op h
    have hrec := ih (s.applyOp op) hstep.1
    exact ⟨hrec.1, hrec.2.trans hstep.2⟩

/-- C3.  For every initial raster and every sequence of session operations
(committed edits interleaved with undos and redos), the session's cached
committed raster always equals the replay, in order, of the undo buffer's
current event log onto the initial raster: applying each edit incrementally
to the live raster at the moment it is committed (`commit_current_event`
updates `canvas_state` and the undo buffer together) never diverges from
`replay(initial, history)`. -/
theorem session_cached_raster_eq_replay (initial : Raster) (ops : List SessionOp) :
    ((DrawingSession.new initial).runOps ops).canvasState =
      replayEvents initial ((DrawingSession.new initial).runOps ops).undoBuffer.events := by
  have h := DrawingSession.runOps_invariant ops (DrawingSession.new initial) rfl
  have h2 : ((DrawingSession.new initial).runOps ops).undoBuffer.initial = initial := h.2
  rw [h.1, h2]

/-- C4.  On any undo buffer with a non-empty event log, `undo()` followed
immediately by `redo()` returns the raster the buffer produced before the
undo: the replay of the full event log onto the initial raster. -/
theorem undo_then_redo_restores_raster (b : UndoBuffer) (h : b.events ≠ []) :
    ((b.undo.2).redo).1 = replayEvents b.initial b.events := by
  have hl : b.events.getLast? = some (b.events.getLast h) :=
    List.getLast?_eq_getLast_of_ne_nil h
  simp only [UndoBuffer.undo, hl, UndoBuffer.redo, List.getLast?_concat]
  rw [List.dropLast_append_getLast h]

/-- A concrete committed edit for the undo-buffer witnesses: an erase stroke
over the single coordinate `(0, 0)`. -/
def sampleEdit : DrawingEventWithRenderCell :=
  ⟨DrawingEvent.mousePressErase ⟨0, 0⟩, ⟨none, ⟨none, none, none, none⟩⟩⟩

/-- A concrete undo buffer whose event log holds one committed edit. -/
def sampleBuffer : UndoBuffer := ⟨Raster.new 2 2, [sampleEdit], []⟩

/-- C4 witness: undo followed by redo on the one-edit buffer reproduces the
replay of its full history. -/
theorem undo_then_redo_restores_raster_witness :
    ((sampleBuffer.undo.2).redo).1 = replayEvents sampleBuffer.initial sampleBuffer.events :=
  undo_then_redo_restores_raster sampleBuffer (by simp [sampleBuffer])

/-- C5.  After `commit_event` on any undo buffer — even one whose redo stack
was non-empty just before — the redo stack is empty, and an immediately
following `redo()` is a no-op: it returns the replay of the current event
log (the current committed raster, by C3) and leaves the buffer completely
unchanged. -/
theorem commit_clears_redo_stack (b : UndoBuffer) (e : DrawingEventWithRenderCell) :
    (b.commitEvent e).redoBuffer = [] ∧
      (b.commitEvent e).redo =
        (replayEvents (b.commitEvent e).initial (b.commitEvent e).events, b.commitEvent e) :=
  ⟨rfl, rfl⟩

/-- `n`-fold sequential self-composition of `cell` on top of a starting
cell — the "apply `style` to the raster `count` times in sequence" of the
pencil-commit claim C7. -/
def stackIter (cell : RenderCell) : Nat → RenderCell → RenderCell
  | 0, x => x
  | n + 1, x => stackIter cell n (Raster.stackRenderCells x cell)

theorem Raster.setCoord_cells_ne (r : Raster) (coord c : Coord) (cell : RenderCell)
    (h : c ≠ coord) : (r.setCoord coord cell).cells c = r.cells c := by
  unfold Raster.setCoord
  split
  · simp [h]
  · rfl

theorem Raster.setCoord_cells_self (r : Raster) (coord : Coord) (cell : RenderCell)
    (h : r.InBounds coord) :
    (r.setCoord coord cell).cells coord = Raster.stackRenderCells (r.cells coord) cell := by
  unfold Raster.setCoord
  rw [if_pos h]
  simp

theorem Raster.setCoord_InBounds (r : Raster) (coord c : Coord) (cell : RenderCell) :
    (r.setCoord coord cell).InBounds c ↔ r.InBounds c := by
  unfold Raster.setCoord Raster.InBounds
  split <;> simp

theorem setCoordTimes_InBounds (coord c : Coord) (cell : RenderCell) :
    ∀ (n : Nat) (r : Raster), (setCoordTimes r coord cell n).InBounds c ↔ r.InBounds c := by
  intro n
  induction n with
  | zero => intro r; exact Iff.rfl
  | succ n ih =>
    intro r
    calc (setCoordTimes (r.setCoord coord cell) coord cell n).InBounds c
        ↔ (r.setCoord coord cell).InBounds c := ih (r.setCoord coord cell)
      _ ↔ r.InBounds c := Raster.setCoord_InBounds r coord c cell

theorem setCoordTimes_cells_ne (coord c : Coord) (cell : RenderCell) (h : c ≠ coord) :
    ∀ (n : Nat) (r : Raster), (setCoordTimes r coord cell n).cells c = r.cells c := by
  intro n
  induction n with
  | zero => intro r; rfl
  | succ n ih =>
    intro r
    calc (setCoordTimes (r.setCoord coord cell) coord cell n).cells c
        = (r.setCoord coord cell).cells c := ih (r.setCoord coord cell)
      _ = r.cells c := Raster.setCoord_cells_ne r coord c cell h

theorem setCoordTimes_cells_self (coord : Coord) (cell : RenderCell) :
    ∀ (n : Nat) (r : Raster), r.InBounds coord →
      (setCoordTimes r coord cell n).cells coord = stackIter cell n (r.cells coord) := by
  intro n
  induction n with
  | zero => intro r _; rfl
  | succ n ih =>
    intro r h
    have h' : (r.setCoord coord cell).InBounds coord :=
      (Raster.setCoord_InBounds r coord coord cell).mpr h
    calc (setCoordTimes (r.setCoord coord cell) coord cell n).cells coord
        = stackIter cell n ((r.setCoord coord cell).cells coord) := ih _ h'
      _ = stackIter cell n (Raster.stackRenderCells (r.cells coord) cell) := by
          rw [Raster.setCoord_cells_self r coord cell h]
      _ = stackIter cell (n + 1) (r.cells coord) := rfl

/-- The pencil-commit fold leaves untouched every cell whose coordinate is
not a key of the visit-count map (helper for C7). -/
theorem pencil_commit_fold_ne (cell : RenderCell) (c : Coord) :
    ∀ (l : List (Coord × Nat)) (r : Raster), (∀ p ∈ l, p.1 ≠ c) →
      (l.foldl (fun acc p => setCoordTimes acc p.1 cell p.2) r).cells c = r.cells c := by
  intro l
  induction l with
  | nil => intro r _; rfl
  | cons p ps ih =>
    intro r hne
    have hp : p.1 ≠ c := hne p (List.mem_cons_self p ps)
    calc (ps.foldl (fun acc q => setCoordTimes acc q.1 cell q.2)
            (setCoordTimes r p.1 cell p.2)).cells c
        = (setCoordTimes r p.1 cell p.2).cells c :=
          ih _ (fun q hq => hne q (List.mem_cons_of_mem p hq))
      _ = r.cells c := setCoordTimes_cells_ne p.1 c cell (fun hc => hp hc.symm) p.2 r

theorem pencil_commit_fold_self (cell : RenderCell) (c : Coord) (n : Nat) :
    ∀ (l : List (Coord × Nat)) (r : Raster), (l.map Prod.fst).Nodup → (c, n) ∈ l →
      r.InBounds c →
      (l.foldl (fun acc p => setCoordTimes acc p.1 cell p.2) r).cells c =
        stackIter cell n (r.cells c) := by
  intro l
  induction l with
  | nil => intro r _ hmem; exact absurd hmem (List.not_mem_nil _)
  | cons p ps ih =>
    intro r hnodup hmem hin
    have hnodup' : (ps.map Prod.fst).Nodup := (List.nodup_cons.mp hnodup).2
    have hhead : p.1 ∉ ps.map Prod.fst := (List.nodup_cons.mp hnodup).1
    rcases List.mem_cons.mp hmem with hp | hp
    · subst hp
      have hne : ∀ q ∈ ps, q.1 ≠ c := by
        intro q hq hqc
        have hq1 : q.1 ∈ ps.map Prod.fst := List.mem_map_of_mem Prod.fst hq
        rw [hqc] at hq1
        exact hhead hq1
      calc (ps.foldl (fun acc q => setCoordTimes acc q.1 cell q.2)
              (setCoordTimes r c cell n)).cells c
          = (setCoordTimes r c cell n).cells c := pencil_commit_fold_ne cell c ps _ hne
        _ = stackIter cell n (r.cells c) := setCoordTimes_cells_self c cell n r hin
    · have hpc : p.1 ≠ c := by
        intro hc
        have hc1 : c ∈ ps.map Prod.fst := List.mem_map_of_mem Prod.fst hp
        rw [← hc] at hc1
        exact hhead hc1
      have hin' : (setCoordTimes r p.1 cell p.2).InBounds c :=
        (setCoordTimes_InBounds p.1 c cell p.2 r).mpr hin
      calc (ps.foldl (fun acc q => setCoordTimes acc q.1 cell q.2)
              (setCoordTimes r p.1 cell p.2)).cells c
          = stackIter cell n ((setCoordTimes r p.1 cell p.2).cells c) :=
            ih _ hnodup' hp hin'
        _ = stackIter cell n (r.cells c) := by
            rw [setCoordTimes_cells_ne p.1 c cell (fun hc => hpc hc.symm) p.2 r]

/-- C7.  For every pencil event whose visit-count map has distinct keys (as
any `HashMap` does), every recorded in-bounds coordinate with visit-count
`count`, and every style, `commit` leaves at that coordinate exactly the
`count`-fold sequential self-composition of the style on top of the
previous cell — repeated composition, one application per recorded visit,
not a single composite. -/
theorem pencil_commit_applies_style_count_times (e : PencilEvent) (cell : RenderCell)
    (r : Raster) (c : Coord) (n : Nat) (hnodup : (e.coords.map Prod.fst).Nodup)
    (hmem : (c, n) ∈ e.coords) (hin : r.InBounds c) :
    (e.commit cell r).cells c = stackIter cell n (r.cells c) :=
  pencil_commit_fold_self cell c n e.coords r hnodup hmem hin

/-- C7 witness: a pencil stroke that visited `(0, 0)` three times and
`(1, 0)` once, committed with a bold cell onto a fresh 2×1 raster. -/
theorem pencil_commit_applies_style_count_times_witness :
    ((PencilEvent.mk [(⟨0, 0⟩, 3), (⟨1, 0⟩, 1)] ⟨1, 0⟩).commit
        ⟨some 'x', ⟨none, none, some true, none⟩⟩ (Raster.new 2 1)).cells ⟨0, 0⟩ =
      stackIter ⟨some 'x', ⟨none, none, some true, none⟩⟩ 3 ((Raster.new 2 1).cells ⟨0, 0⟩) :=
  pencil_commit_applies_style_count_times
    (PencilEvent.mk [(⟨0, 0⟩, 3), (⟨1, 0⟩, 1)] ⟨1, 0⟩)
    ⟨some 'x', ⟨none, none, some true, none⟩⟩ (Raster.new 2 1) ⟨0, 0⟩ 3
    (by decide) (by decide) (by decide)

theorem Raster.get?_eq_some_iff (r : Raster) (c : Coord) (x : RenderCell) :
    r.get? c = some x ↔ (r.InBounds c ∧ r.cells c = x) := by
  unfold Raster.get?
  split <;> simp_all

theorem Raster.get?_eq_none_iff (r : Raster) (c : Coord) :
    r.get? c = none ↔ ¬ r.InBounds c := by
  unfold Raster.get?
  split <;> simp_all

/-- Every in-bounds coordinate of a raster, row by row; used only to bound
the flood-fill fuel. -/
def Raster.allCoords (r : Raster) : List Coord :=
  (List.range r.height).flatMap
    (fun (y : Nat) => (List.range r.width).map (fun (x : Nat) => Coord.mk x y))

theorem Raster.mem_allCoords (r : Raster) (c : Coord) :
    c ∈ r.allCoords ↔ r.InBounds c := by
  unfold Raster.allCoords
  rw [List.mem_flatMap]
  constructor
  · rintro ⟨y, hy, hc⟩
    rw [List.mem_map] at hc
    obtain ⟨x, hx, rfl⟩ := hc
    rw [List.mem_range] at hy hx
    unfold Raster.InBounds
    dsimp only
    refine ⟨?_, ?_, ?_, ?_⟩ <;> omega
  · intro h
    obtain ⟨hx0, hxw, hy0, hyh⟩ := h
    refine ⟨c.y.toNat, ?_, ?_⟩
    · rw [List.mem_range]; omega
    · rw [List.mem_map]
      refine ⟨c.x.toNat, ?_, ?_⟩
      · rw [List.mem_range]; omega
      · cases c with
        | mk cx cy =>
          dsimp only at hx0 hy0 ⊢
          rw [Coord.mk.injEq]
          constructor <;> omega

theorem length_flatMap_const {α β : Type} (f : α → List β) (l : List α) (w : Nat)
    (hf : ∀ a ∈ l, (f a).length = w) : (l.flatMap f).length = l.length * w := by
  induction l with
  | nil => simp
  | cons a l ih =>
    have ha := hf a (List.mem_cons_self a l)
    have hrest : ∀ b ∈ l, (f b).length = w := fun b hb => hf b (List.mem_cons_of_mem a hb)
    simp [List.flatMap_cons, List.length_append, ha, ih hrest, Nat.succ_mul, Nat.add_comm]

theorem Raster.length_allCoords (r : Raster) : r.allCoords.length = r.width * r.height := by
  unfold Raster.allCoords
  rw [length_flatMap_const _ _ r.width (fun a _ => by rw [List.length_map, List.length_range]),
    List.length_range, Nat.mul_comm]

/-- The number of in-bounds coordinates not yet seen: the decreasing measure
behind the termination of the flood-fill loop. -/
def unseenCount (r : Raster) (seen : List Coord) : Nat :=
  (r.allCoords.filter (fun c => decide (c ∉ seen))).length

theorem filter_notMem_le (seen : List Coord) (n : Coord) (l : List Coord) :
    (l.filter (fun c => decide (c ∉ seen ++ [n]))).length ≤
      (l.filter (fun c => decide (c ∉ seen))).length := by
  rw [← List.countP_eq_length_filter, ← List.countP_eq_length_filter]
  apply List.countP_mono_left
  intro c _ hc
  simp only [decide_eq_true_eq] at hc ⊢
  intro hcs
  exact hc (List.mem_append_left _ hcs)

theorem filter_notMem_concat_length (seen : List Coord) (n : Coord) (hns : n ∉ seen) :
    ∀ l : List Coord, n ∈ l →
      (l.filter (fun c => decide (c ∉ seen ++ [n]))).length + 1 ≤
        (l.filter (fun c => decide (c ∉ seen))).length := by
  intro l
  induction l with
  | nil => intro h; cases h
  | cons a l ih =>
    intro hmem
    by_cases han : a = n
    · subst han
      have h1 : (decide (a ∉ seen ++ [a])) = false := by simp
      have h2 : (decide (a ∉ seen)) = true := by simpa using hns
      simp only [List.filter_cons, h1, h2, if_true, if_false, List.length_cons,
        Bool.false_eq_true]
      have := filter_notMem_le seen a l
      omega
    · have hmem' : n ∈ l := by
        rcases List.mem_cons.mp hmem with h | h
        · exact absurd h.symm han
        · exact h
      have hrec := ih hmem'
      by_cases has : a ∈ seen
      · have h1 : (decide (a ∉ seen ++ [n])) = false := by
          simp [List.mem_append_left _ has]
        have h2 : (decide (a ∉ seen)) = false := by simp [has]
        simp only [List.filter_cons, h1, h2, if_false, Bool.false_eq_true]
        exact hrec
      · have h1 : (decide (a ∉ seen ++ [n])) = true := by
          simp [List.mem_append, has, han]
        have h2 : (decide (a ∉ seen)) = true := by simp [has]
        simp only [List.filter_cons, h1, h2, if_true, List.length_cons]
        omega

theorem unseenCount_concat (r : Raster) (seen : List Coord) (n : Coord)
    (hn : r.InBounds n) (hns : n ∉ seen) :
    unseenCount r (seen ++ [n]) + 1 ≤ unseenCount r seen :=
  filter_notMem_concat_length seen n hns r.allCoords ((r.mem_allCoords n).mpr hn)

theorem unseenCount_nil (r : Raster) : unseenCount r [] = r.width * r.height := by
  unfold unseenCount
  simp [Raster.length_allCoords]

/-- The reachability relation of claim C6: a coordinate is reachable from
the seed when a chain of cardinal-direction steps leads to it from the seed
through in-bounds coordinates whose stored cells are all structurally equal
to the seed's stored cell. -/
inductive Raster.ReachesFrom (r : Raster) (seed : Coord) : Coord → Prop
  | refl : Raster.ReachesFrom r seed seed
  | step {c d : Coord} : Raster.ReachesFrom r seed c → d ∈ cardinalDirectionCoords →
      r.InBounds (c + d) → r.cells (c + d) = r.cells seed →
      Raster.ReachesFrom r seed (c + d)

theorem Raster.ReachesFrom.cells_eq {r : Raster} {seed c : Coord}
    (h : r.ReachesFrom seed c) : r.cells c = r.cells seed := by
  induction h with
  | refl => rfl
  | step _ _ _ hcell _ => exact hcell

/-- One pass of the neighbour loop appends a single batch of fresh,
in-bounds, seed-cell-equal neighbours of the popped coordinate to both the
queue and the seen set; afterwards every eligible neighbour in the processed
direction list is in the seen set (helper for C6/C10). -/
theorem floodFillNeighbours_spec (r : Raster) (icell : RenderCell) (c : Coord) :
    ∀ (ds queue seen : List Coord),
      ∃ new : List Coord,
        floodFillNeighbours r icell c ds queue seen = (queue ++ new, seen ++ new) ∧
        new.Nodup ∧
        (∀ n ∈ new, n ∉ seen ∧ r.InBounds n ∧ r.cells n = icell ∧ ∃ d ∈ ds, n = c + d) ∧
        (∀ d ∈ ds, r.InBounds (c + d) → r.cells (c + d) = icell → c + d ∈ seen ++ new) := by
  intro ds
  induction ds with
  | nil =>
    intro queue seen
    refine ⟨[], ?_, List.nodup_nil, ?_, ?_⟩
    · simp [floodFillNeighbours]
    · intro n hn; cases hn
    · intro d hd; cases hd
  | cons d ds ih =>
    intro queue seen
    by_cases hseen : c + d ∈ seen
    · obtain ⟨new, heq, hnd, hprops, hclo⟩ := ih queue seen
      refine ⟨new, ?_, hnd, ?_, ?_⟩
      · rw [show floodFillNeighbours r icell c (d :: ds) queue seen
            = floodFillNeighbours r icell c ds queue seen from by
          simp [floodFillNeighbours, hseen]]
        exact heq
      · intro n hn
        obtain ⟨h1, h2, h3, d', hd', he⟩ := hprops n hn
        exact ⟨h1, h2, h3, d', List.mem_cons_of_mem d hd', he⟩
      · intro d' hd' hbd hcell
        rcases List.mem_cons.mp hd' with rfl | hd'
        · exact List.mem_append_left _ hseen
        · exact hclo d' hd' hbd hcell
    · cases hget : r.get? (c + d) with
      | none =>
        have hnin : ¬ r.InBounds (c + d) := (r.get?_eq_none_iff (c + d)).mp hget
        obtain ⟨new, heq, hnd, hprops, hclo⟩ := ih queue seen
        refine ⟨new, ?_, hnd, ?_, ?_⟩
        · rw [show floodFillNeighbours r icell c (d :: ds) queue seen
              = floodFillNeighbours r icell c ds queue seen from by
            simp [floodFillNeighbours, hseen, hget]]
          exact heq
        · intro n hn
          obtain ⟨h1, h2, h3, d', hd', he⟩ := hprops n hn
          exact ⟨h1, h2, h3, d', List.mem_cons_of_mem d hd', he⟩
        · intro d' hd' hbd hcell
          rcases List.mem_cons.mp hd' with rfl | hd'
          · exact absurd hbd hnin
          · exact hclo d' hd' hbd hcell
      | some neiCell =>
        obtain ⟨hbd, hcells⟩ := (r.get?_eq_some_iff (c + d) neiCell).mp hget
        by_cases hcell : neiCell = icell
        · obtain ⟨new, heq, hnd, hprops, hclo⟩ := ih (queue ++ [c + d]) (seen ++ [c + d])
          refine ⟨(c + d) :: new, ?_, ?_, ?_, ?_⟩
          · rw [show floodFillNeighbours r icell c (d :: ds) queue seen
                = floodFillNeighbours r icell c ds (queue ++ [c + d]) (seen ++ [c + d]) from by
              simp [floodFillNeighbours, hseen, hget, hcell]]
            rw [heq, List.append_assoc, List.append_assoc]
            rfl
          · rw [List.nodup_cons]
            refine ⟨?_, hnd⟩
            intro hmem
            exact (hprops _ hmem).1 (List.mem_append_right _ (List.mem_singleton_self _))
          · intro n hn
            rcases List.mem_cons.mp hn with rfl | hn
            · exact ⟨hseen, hbd, hcells.trans hcell, d, List.mem_cons_self d ds, rfl⟩
            · obtain ⟨h1, h2, h3, d', hd', he⟩ := hprops n hn
              refine ⟨fun hs => h1 (List.mem_append_left _ hs), h2, h3, d',
                List.mem_cons_of_mem d hd', he⟩
          · intro d' hd' hbd' hcell'
            rcases List.mem_cons.mp hd' with rfl | hd'
            · exact List.mem_append_right _ (List.mem_cons_self _ _)
            · have hmem := hclo d' hd' hbd' hcell'
              rw [List.append_assoc] at hmem
              exact hmem
        · obtain ⟨new, heq, hnd, hprops, hclo⟩ := ih queue seen
          refine ⟨new, ?_, hnd, ?_, ?_⟩
          · rw [show floodFillNeighbours r icell c (d :: ds) queue seen
                = floodFillNeighbours r icell c ds queue seen from by
              simp [floodFillNeighbours, hseen, hget, hcell]]
            exact heq
          · intro n hn
            obtain ⟨h1, h2, h3, d', hd', he⟩ := hprops n hn
            exact ⟨h1, h2, h3, d', List.mem_cons_of_mem d hd', he⟩
          · intro d' hd' hbd' hcell'
            rcases List.mem_cons.mp hd' with rfl | hd'
            · exact absurd (hcells.symm.trans hcell') hcell
            · exact hclo d' hd' hbd' hcell'

/-- Adding a duplicate-free batch of fresh in-bounds coordinates to the seen
set decreases the unseen measure by at least the batch size (helper for the
flood-fill fuel bound). -/
theorem unseenCount_append (r : Raster) :
    ∀ (new seen : List Coord), new.Nodup → (∀ n ∈ new, n ∉ seen ∧ r.InBounds n) →
      unseenCount r (seen ++ new) + new.length ≤ unseenCount r seen := by
  intro new
  induction new with
  | nil => intro seen _ _; simp
  | cons n new ih =>
    intro seen hnd hprop
    have h1 : n ∉ seen := (hprop n (List.mem_cons_self n new)).1
    have h2 : r.InBounds n := (hprop n (List.mem_cons_self n new)).2
    have hstep := unseenCount_concat r seen n h2 h1
    have hrest : ∀ m ∈ new, m ∉ seen ++ [n] ∧ r.InBounds m := by
      intro m hm
      refine ⟨?_, (hprop m (List.mem_cons_of_mem n hm)).2⟩
      intro hmem
      rcases List.mem_append.mp hmem with h | h
      · exact (hprop m (List.mem_cons_of_mem n hm)).1 h
      · rcases List.mem_singleton.mp h with rfl
        exact (List.nodup_cons.mp hnd).1 hm
    have hrec := ih (seen ++ [n]) (List.nodup_cons.mp hnd).2 hrest
    rw [show seen ++ n :: new = (seen ++ [n]) ++ new from by simp]
    simp only [List.length_cons]
    omega

/-- The flood-fill worklist invariant: given enough fuel, starting from any
queue/seen pair satisfying the invariants, the loop returns a superset of
the seen set whose members are exactly reachable, in-bounds coordinates and
which is closed under eligible cardinal steps (helper for C6/C10). -/
theorem floodFillLoop_spec (r : Raster) (seed : Coord) :
    ∀ (fuel : Nat) (queue seen : List Coord),
      queue.length + unseenCount r seen ≤ fuel →
      seen.Nodup →
      (∀ c ∈ queue, c ∈ seen) →
      (∀ c ∈ seen, r.ReachesFrom seed c) →
      (∀ c ∈ seen, r.InBounds c) →
      (∀ c ∈ seen, c ∉ queue → ∀ d ∈ cardinalDirectionCoords,
        r.InBounds (c + d) → r.cells (c + d) = r.cells seed → c + d ∈ seen) →
      (∀ c ∈ seen, c ∈ floodFillLoop r (r.cells seed) fuel queue seen) ∧
        (∀ c ∈ floodFillLoop r (r.cells seed) fuel queue seen, r.ReachesFrom seed c) ∧
        (∀ c ∈ floodFillLoop r (r.cells seed) fuel queue seen, r.InBounds c) ∧
        (∀ c ∈ floodFillLoop r (r.cells seed) fuel queue seen,
          ∀ d ∈ cardinalDirectionCoords, r.InBounds (c + d) →
            r.cells (c + d) = r.cells seed →
            c + d ∈ floodFillLoop r (r.cells seed) fuel queue seen) := by
  intro fuel
  induction fuel with
  | zero =>
    intro queue seen hfuel hnd hqs hreach hbounds hclosed
    have hq : queue = [] := List.length_eq_zero.mp (by omega)
    subst hq
    refine ⟨fun c hc => hc, hreach, hbounds, ?_⟩
    intro c hc d hd hbd hcell
    exact hclosed c hc (List.not_mem_nil c) d hd hbd hcell
  | succ fuel ih =>
    intro queue seen hfuel hnd hqs hreach hbounds hclosed
    cases queue with
    | nil =>
      refine ⟨fun c hc => hc, hreach, hbounds, ?_⟩
      intro c hc d hd hbd hcell
      exact hclosed c hc (List.not_mem_nil c) d hd hbd hcell
    | cons c0 rest =>
      obtain ⟨new, heq, hndnew, hprops, hclo⟩ :=
        floodFillNeighbours_spec r (r.cells seed) c0 cardinalDirectionCoords rest seen
      have hstep : floodFillLoop r (r.cells seed) (fuel + 1) (c0 :: rest) seen
          = floodFillLoop r (r.cells seed) fuel (rest ++ new) (seen ++ new) := by
        simp [floodFillLoop, heq]
      have hnewfacts : ∀ n ∈ new, n ∉ seen ∧ r.InBounds n :=
        fun n hn => ⟨(hprops n hn).1, (hprops n hn).2.1⟩
      have hfuel' : (rest ++ new).length + unseenCount r (seen ++ new) ≤ fuel := by
        have hcnt := unseenCount_append r new seen hndnew hnewfacts
        have hold : (c0 :: rest).length + unseenCount r seen ≤ fuel + 1 := hfuel
        simp only [List.length_append, List.length_cons] at hold ⊢
        omega
      have hnd' : (seen ++ new).Nodup := by
        refine List.Nodup.append hnd hndnew ?_
        rw [List.disjoint_left]
        intro a ha hanew
        exact (hprops a hanew).1 ha
      have hc0seen : c0 ∈ seen := hqs c0 (List.mem_cons_self c0 rest)
      have hqs' : ∀ c ∈ rest ++ new, c ∈ seen ++ new := by
        intro c hc
        rcases List.mem_append.mp hc with h | h
        · exact List.mem_append_left _ (hqs c (List.mem_cons_of_mem c0 h))
        · exact List.mem_append_right _ h
      have hreach' : ∀ c ∈ seen ++ new, r.ReachesFrom seed c := by
        intro c hc
        rcases List.mem_append.mp hc with h | h
        · exact hreach c h
        · obtain ⟨_, hb, hcells, d, hd, rfl⟩ := hprops c h
          exact Raster.ReachesFrom.step (hreach c0 hc0seen) hd hb hcells
      have hbounds' : ∀ c ∈ seen ++ new, r.InBounds c := by
        intro c hc
        rcases List.mem_append.mp hc with h | h
        · exact hbounds c h
        · exact (hprops c h).2.1
      have hclosed' : ∀ c ∈ seen ++ new, c ∉ rest ++ new →
          ∀ d ∈ cardinalDirectionCoords, r.InBounds (c + d) →
            r.cells (c + d) = r.cells seed → c + d ∈ seen ++ new := by
        intro c hc hcq d hd hbd hcell
        by_cases hcc0 : c = c0
        · subst hcc0
          exact hclo d hd hbd hcell
        · rcases List.mem_append.mp hc with h | h
          · have hcrest : c ∉ c0 :: rest := by
              intro hmem
              rcases List.mem_cons.mp hmem with h' | h'
              · exact hcc0 h'
              · exact hcq (List.mem_append_left _ h')
            exact List.mem_append_left _ (hclosed c h hcrest d hd hbd hcell)
          · exact absurd (List.mem_append_right rest h) hcq
      have hrec := ih (rest ++ new) (seen ++ new) hfuel' hnd' hqs' hreach' hbounds' hclosed'
      rw [hstep]
      refine ⟨?_, hrec.2.1, hrec.2.2.1, hrec.2.2.2⟩
      intro c hc
      exact hrec.1 c (List.mem_append_left _ hc)

/-- Full characterization of `flood_fill` on an in-bounds seed: the result
is sound and complete for C6's reachability relation, stays in bounds, and
contains the seed (helper shared by C6 and C10). -/
theorem Raster.floodFill_spec (r : Raster) (seed : Coord) (hseed : r.InBounds seed) :
    seed ∈ r.floodFill seed ∧
      (∀ c ∈ r.floodFill seed, r.ReachesFrom seed c) ∧
      (∀ c, r.ReachesFrom seed c → c ∈ r.floodFill seed) ∧
      (∀ c ∈ r.floodFill seed, r.InBounds c) := by
  have hfuel : ([seed] : List Coord).length + unseenCount r [seed] ≤ r.width * r.height := by
    have hstep := unseenCount_concat r [] seed hseed (List.not_mem_nil seed)
    rw [unseenCount_nil] at hstep
    simp only [List.length_cons, List.length_nil]
    simp only [List.nil_append] at hstep
    omega
  have hreach0 : ∀ c ∈ ([seed] : List Coord), r.ReachesFrom seed c := by
    intro c hc
    rcases List.mem_singleton.mp hc with rfl
    exact Raster.ReachesFrom.refl
  have hbounds0 : ∀ c ∈ ([seed] : List Coord), r.InBounds c := by
    intro c hc
    rcases List.mem_singleton.mp hc with rfl
    exact hseed
  have hclosed0 : ∀ c ∈ ([seed] : List Coord), c ∉ ([seed] : List Coord) →
      ∀ d ∈ cardinalDirectionCoords, r.InBounds (c + d) →
        r.cells (c + d) = r.cells seed → c + d ∈ ([seed] : List Coord) := by
    intro c hc hcq
    exact absurd hc hcq
  have h := floodFillLoop_spec r seed (r.width * r.height) [seed] [seed] hfuel
    (List.nodup_singleton seed) (fun c hc => hc) hreach0 hbounds0 hclosed0
  have hseedmem : seed ∈ r.floodFill seed :=
    h.1 seed (List.mem_singleton_self seed)
  refine ⟨hseedmem, h.2.1, ?_, h.2.2.1⟩
  intro c hc
  induction hc with
  | refl => exact hseedmem
  | step _ hd hbd hcell ihc => exact h.2.2.2 _ ihc _ hd hbd hcell

/-- C6.  For every raster and in-bounds seed, `flood_fill(seed)` contains
the seed; contains every coordinate reachable from the seed through a chain
of cardinal-direction steps over stored cells structurally equal to the
seed's stored cell at call time; and contains no coordinate whose stored
cell differs from the seed's cell in any field (every member's cell equals
the seed's cell exactly). -/
theorem flood_fill_region_characterization (r : Raster) (seed : Coord)
    (hseed : r.InBounds seed) :
    seed ∈ r.floodFill seed ∧
      (∀ c, r.ReachesFrom seed c → c ∈ r.floodFill seed) ∧
      (∀ c ∈ r.floodFill seed, r.cells c = r.cells seed) := by
  obtain ⟨hmem, hsound, hcomplete, _⟩ := r.floodFill_spec seed hseed
  exact ⟨hmem, hcomplete, fun c hc => (hsound c hc).cells_eq⟩

/-- C6 witness: on the fresh 1×2 raster with seed `(0, 0)`, the region
contains the seed, and the member `(0, 1)` stores a cell equal to the
seed's cell. -/
theorem flood_fill_region_characterization_witness :
    ⟨0, 0⟩ ∈ (Raster.new 1 2).floodFill ⟨0, 0⟩ ∧
      (Raster.new 1 2).cells ⟨0, 1⟩ = (Raster.new 1 2).cells ⟨0, 0⟩ :=
  ⟨(flood_fill_region_characterization (Raster.new 1 2) ⟨0, 0⟩ (by decide)).1,
    (flood_fill_region_characterization (Raster.new 1 2) ⟨0, 0⟩ (by decide)).2.2
      ⟨0, 1⟩ (by decide)⟩

/-- C10.  For every raster and in-bounds seed, every coordinate in the set
returned by `flood_fill(seed)` is itself within the raster's bounds. -/
theorem flood_fill_stays_in_bounds (r : Raster) (seed : Coord) (hseed : r.InBounds seed) :
    ∀ c ∈ r.floodFill seed, r.InBounds c :=
  (r.floodFill_spec seed hseed).2.2.2

/-- C10 witness: on the fresh 2×2 raster with seed `(1, 1)`, the flood-fill
member `(0, 1)` is in bounds. -/
theorem flood_fill_stays_in_bounds_witness :
    (Raster.new 2 2).InBounds ⟨0, 1⟩ :=
  flood_fill_stays_in_bounds (Raster.new 2 2) ⟨1, 1⟩ (by decide) ⟨0, 1⟩ (by decide)
